import Mathlib

/-!
# Verification of the arrbiter filter engine (package `filter`)

A shallow embedding of the filter-expression engine: the LRU cache
(`cache.go`), the legacy syntax converter (`compat.go`), the expression
compiler (`filter.go`), the worker pool (`pool.go`), the concurrent
evaluator (`evaluator.go`) and the filter manager (`manager.go`).

Modelling conventions:
* Records (`radarr.MovieInfo`) are an abstract type `α`: the engine never
  inspects record fields, it only applies `CompiledFilter.Evaluate`.
* The embedded expr-language virtual machine (`expr.Compile` / `expr.Run`,
  an external library) is abstracted as explicit function parameters
  (`compileExpr : String → Except String Program`,
  `run : α → Except String Bool`).
* `context.Context` cancellation is modelled by a boolean `canceled` that
  every `ctx.Done()` check observes: it captures the deterministic case in
  which the cancellation signal has fired before the call proceeds.
* Goroutine scheduling is collapsed to the deterministic outcome the code
  produces once every submitted task has run: chunk results are keyed by
  chunk index and recombined in ascending index order, so the interleaving
  does not affect the final value.
* Go `int` is `Int` (with `Int.tdiv` for Go's truncated division); a Go
  panic or a diverging loop is modelled as the `Option` value `none`.
-/

set_option autoImplicit false

namespace Arrbiter

universe u

variable {α : Type u} {V : Type u} {W : Type u} {Φ : Type u}

/-- Exact-key association-list lookup, modelling both the Go map
`items map[string]*list.Element` of the LRU cache and the registry map of
the `Manager` (Go map lookup is exact string equality). -/
def findVal (k : String) : List (String × V) → Option V
  | [] => none
  | e :: es => if e.1 = k then some e.2 else findVal k es

/-- Removal of the (unique) list node holding key `k`, modelling
`list.List.Remove`/`MoveToFront` of the node found through the `items`
map: the first entry with key `k` is removed. -/
def removeKey (k : String) : List (String × V) → List (String × V)
  | [] => []
  | e :: es => if e.1 = k then es else e :: removeKey k es

/-- Effectful map over a list in the `Option` monad, modelling a Go loop
that aborts (here: an unrecovered panic in a submitted task) as `none`. -/
def mapO {β γ : Type*} (f : β → Option γ) : List β → Option (List γ)
  | [] => some []
  | b :: bs =>
    match f b with
    | none => none
    | some c =>
      match mapO f bs with
      | none => none
      | some cs => some (c :: cs)

/-- Effectful map over a list in the `Except` monad, modelling a Go loop
returning on the first non-nil error. -/
def mapE {ε β γ : Type*} (f : β → Except ε γ) : List β → Except ε (List γ)
  | [] => .ok []
  | b :: bs =>
    match f b with
    | .error e => .error e
    | .ok c =>
      match mapE f bs with
      | .error e => .error e
      | .ok cs => .ok (c :: cs)

/-- `strings.Contains` (used by `IsLegacyFilter`): list-of-characters
prefix test. -/
def startsWithL : List Char → List Char → Bool
  | [], _ => true
  | _ :: _, [] => false
  | p :: ps, c :: cs => p = c && startsWithL ps cs

/-- `strings.Contains` (used by `IsLegacyFilter`): substring test. -/
def containsSubL (pat : List Char) : List Char → Bool
  | [] => pat.isEmpty
  | c :: cs => startsWithL pat (c :: cs) || containsSubL pat cs

/-- `strings.Contains s pat` on strings. -/
def containsSubstrM (s pat : String) : Bool :=
  containsSubL pat.toList s.toList

/-- `strings.TrimSpace`: strip leading and trailing whitespace. -/
def trimSpaceM (s : String) : String :=
  String.mk (((s.toList.dropWhile Char.isWhitespace).reverse.dropWhile Char.isWhitespace).reverse)

/-! ## LRU cache (`cache.go`)

The cache state is the recency list `evictList` (front = most recently
used), an entry being a `(key, value)` pair; the Go `items` map is the
derived exact-key index `findVal`.  The mutex is dropped: every operation
is an atomic function of the state. -/

namespace lruCache

/-- `lruCache.Get` (`cache.go:32`): on a hit the node is moved to the
front (most recently used) and its value returned; on a miss the state is
unchanged. Returns `(value?, new state)`. -/
def Get (k : String) (s : List (String × V)) : Option V × List (String × V) :=
  match findVal k s with
  | none => (none, s)
  | some v => (some v, (k, v) :: removeKey k s)

/-- `lruCache.removeOldest` (`cache.go:73`): drop the back of the
recency list. -/
def removeOldest (s : List (String × V)) : List (String × V) :=
  s.dropLast

/-- `lruCache.Put` (`cache.go:50`) with capacity `cap'` (`c.size`): an
existing key is updated and moved to the front; a new key is pushed at the
front and, if the length now exceeds the capacity, the least recently used
entry (the back) is evicted. -/
def Put (cap' : Nat) (k : String) (v : V) (s : List (String × V)) : List (String × V) :=
  match findVal k s with
  | some _ => (k, v) :: removeKey k s
  | none =>
    let s' := (k, v) :: s
    if s'.length > cap' then removeOldest s' else s'

/-- `lruCache.Clear` (`cache.go:83`). -/
def Clear (_s : List (String × V)) : List (String × V) := []

/-- `lruCache.Size` (`cache.go:92`): `evictList.Len()`. -/
def Size (s : List (String × V)) : Nat := s.length

end lruCache

/-- One cache operation, for stating invariants over arbitrary
`Get`/`Put`/`Clear` sequences. -/
inductive LRUOp (V : Type u) where
  | get (k : String)
  | put (k : String) (v : V)
  | clear

/-- Run a sequence of cache operations on a state. -/
def runOps (cap' : Nat) : List (LRUOp V) → List (String × V) → List (String × V)
  | [], s => s
  | .get k :: ops, s => runOps cap' ops (lruCache.Get k s).2
  | .put k v :: ops, s => runOps cap' ops (lruCache.Put cap' k v s)
  | .clear :: ops, s => runOps cap' ops (lruCache.Clear s)

/-- Fold of `lruCache.Put` over a list of keys (the "insert
`capacity+1` distinct expressions" experiment of the spec). -/
def putAll (cap' : Nat) (v : V) : List String → List (String × V) → List (String × V)
  | [], s => s
  | k :: ks, s => putAll cap' v ks (lruCache.Put cap' k v s)

/-! ## Worker pool (`pool.go`) -/

/-- Errors surfaced by the pool and the evaluator: the sentinel
`ErrPoolStopped` (`pool.go:12`) and a `context` cancellation error. -/
inductive PoolError where
  | poolStopped
  | canceled
deriving DecidableEq

/-- State of a `workerPool` (`pool.go:15`): the `stopped` atomic flag,
whether `stopOnce` has fired, whether `workChan` is closed, and the queued
work items not yet taken by a worker. -/
structure PoolState (W : Type u) where
  stopped : Bool
  onceFired : Bool
  chanClosed : Bool
  queue : List W

/-- `NewWorkerPool` (`pool.go:24`): running pool, empty queue. -/
def newWorkerPool (W : Type u) : PoolState W :=
  { stopped := false, onceFired := false, chanClosed := false, queue := [] }

namespace workerPool

/-- `workerPool.Submit` (`pool.go:55`), in the regime the claim fixes
(`Stop`, if any, completed before `Submit` begins): a stopped pool is
detected by the leading `p.stopped.Load()` check and yields
`ErrPoolStopped`; otherwise the work is enqueued on `workChan` (the
full-queue timed retry only delays the same enqueue and involves real
time, so it is collapsed). -/
def Submit (p : PoolState W) (work : W) : Except PoolError (PoolState W) :=
  if p.stopped then .error .poolStopped
  else .ok { p with queue := p.queue ++ [work] }

/-- `workerPool.Stop` (`pool.go:80`): guarded by `sync.Once`, so only the
first call has an effect — it sets `stopped`, closes `workChan` and waits
for the workers to drain the queue, bounded by the context (`ctxDone`
models the deadline/cancellation having fired before the drain finishes,
in which case `ctx.Err()` is returned but the pool is stopped all the
same).  A later call runs nothing and returns `nil`. -/
def Stop (p : PoolState W) (ctxDone : Bool) : PoolState W × Option PoolError :=
  if p.onceFired then (p, none)
  else
    ({ stopped := true, onceFired := true, chanClosed := true, queue := [] },
     if ctxDone then some .canceled else none)

end workerPool

/-! ## Concurrent evaluator (`evaluator.go`) -/

/-- `evaluateSequential` (`evaluator.go:128`): scan the records in input
order, keeping those the filter matches. -/
def evaluateSequential (p : α → Bool) : List α → List α
  | [] => []
  | m :: ms => if p m then m :: evaluateSequential p ms else evaluateSequential p ms

/-- The chunking loop of `evaluateConcurrent` (`evaluator.go:154`):
`for i := 0; i < len(movies); i += chunkSize { chunk := movies[i:min(i+chunkSize, len(movies))] }`,
i.e. successive `take csize` / `drop csize` slices.  The fuel argument
(instantiated with `l.length`, an upper bound on the number of chunks
whenever `1 ≤ csize`) keeps the recursion structural. -/
def chunkifyGo (csize : Nat) : Nat → List α → List (List α)
  | _, [] => []
  | 0, _ :: _ => []
  | fuel + 1, m :: ms => (m :: ms).take csize :: chunkifyGo csize fuel ((m :: ms).drop csize)

/-- The list of contiguous chunks of `l` of size `csize` (last one
possibly shorter), in input order. -/
def chunkify (csize : Nat) (l : List α) : List (List α) :=
  chunkifyGo csize l.length l

/-- The recombination loop of `evaluateConcurrent` (`evaluator.go:209`):
chunk results appended in ascending chunk index. -/
def combineChunks : List (List α) → List α
  | [] => []
  | c :: cs => c ++ combineChunks cs

/-- `evaluateConcurrent` (`evaluator.go:139`), with every `pool.Submit`
succeeding (the evaluator owns its running pool).  `chunkSize` is
`max(len(movies)/e.workerCount, e.batchSize)` over Go ints; when it is not
positive the program panics at `make(chan chunkResult, len(movies)/chunkSize+1)`
(integer divide by zero), modelled as `none`.  A worker checks the
context before evaluating its chunk; with the signal fired no chunk
reports and the final `ctx.Done()` check returns `nil, ctx.Err()`.
Otherwise every chunk reports its matches keyed by chunk index and the
matches are recombined in ascending index order. -/
def evaluateConcurrent (canceled : Bool) (p : α → Bool) (movies : List α)
    (workerCount batchSize : Int) : Option (Except PoolError (List α)) :=
  let chunkSize : Int := max (Int.tdiv (movies.length : Int) workerCount) batchSize
  if chunkSize ≤ 0 then none
  else if canceled then some (.error .canceled)
  else some (.ok (combineChunks ((chunkify chunkSize.toNat movies).map (evaluateSequential p))))

/-- `ConcurrentEvaluator.Evaluate` (`evaluator.go:52`): empty input short
circuit, sequential path below the batch-size threshold, chunked parallel
path otherwise. -/
def Evaluate (canceled : Bool) (p : α → Bool) (movies : List α)
    (workerCount batchSize : Int) : Option (Except PoolError (List α)) :=
  if movies.length = 0 then some (.ok [])
  else if (movies.length : Int) < batchSize then some (.ok (evaluateSequential p movies))
  else evaluateConcurrent canceled p movies workerCount batchSize

/-- `BatchResult` (one per named filter, sent on `resultChan`). -/
structure BatchResultM (α : Type u) where
  FilterName : String
  Matches : List α
  Error : Option PoolError
deriving DecidableEq

/-- The worker body of `EvaluateBatch` (`evaluator.go:81`): check the
context (fired → report `ctx.Err()` for this filter), else run `Evaluate`
for this filter over the full record set and report its outcome.  `none`
is an inner panic. -/
def batchOutcome (canceled : Bool) (movies : List α) (workerCount batchSize : Int)
    (nf : String × (α → Bool)) : Option (BatchResultM α) :=
  if canceled then some ⟨nf.1, [], some .canceled⟩
  else
    match Evaluate canceled nf.2 movies workerCount batchSize with
    | none => none
    | some (.error e) => some ⟨nf.1, [], some e⟩
    | some (.ok ms) => some ⟨nf.1, ms, none⟩

/-- The collection loop of `EvaluateBatch` (`evaluator.go:116`): results
whose `Error` is non-nil are skipped; the rest enter the result map keyed
by filter name. -/
def collectBatchResults : List (BatchResultM α) → List (String × List α)
  | [] => []
  | r :: rs =>
    match r.Error with
    | some _ => collectBatchResults rs
    | none => (r.FilterName, r.Matches) :: collectBatchResults rs

/-- `ConcurrentEvaluator.EvaluateBatch` (`evaluator.go:67`): empty
filters or records yield an empty map; otherwise one task per named
filter reports a `BatchResult` and the collected map is returned with a
`nil` error.  The filters map is carried as an association list in
(arbitrary but fixed) iteration order; `none` propagates an inner panic. -/
def EvaluateBatch (canceled : Bool) (filters : List (String × (α → Bool)))
    (movies : List α) (workerCount batchSize : Int) :
    Option (Except PoolError (List (String × List α))) :=
  if filters.isEmpty || movies.isEmpty then some (.ok [])
  else
    match mapO (batchOutcome canceled movies workerCount batchSize) filters with
    | none => none
    | some rs => some (.ok (collectBatchResults rs))

/-! ## Expression compiler (`filter.go`, expr-based part) -/

/-- Opaque stand-in for the external `*vm.Program` produced by
`expr.Compile`. -/
structure Program where
  code : String
deriving DecidableEq

/-- `exprFilter` (`filter.go`): the compiled program together with its
(trimmed) source expression. -/
structure ExprFilterM where
  expression : String
  program : Program
deriving DecidableEq

/-- `CompilationError` (error type of the `filter` package): offending
expression, human-readable reason, position (zero value when unset) and
the wrapped external error, if any. -/
structure CompilationErrorM where
  Expression : String
  Reason : String
  Position : Int
  Err : Option String
deriving DecidableEq

/-- `exprFilter.Evaluate` (`filter.go:313`): run the compiled program in
the runtime environment of this record (`run` abstracts
`expr.Run(f.program, createRuntimeEnvironment(movie))`).  A runtime error
is swallowed and the record does not match; a successful run yields the
boolean result (guaranteed boolean by the `AsBool` compile option). -/
def exprFilterEvaluate (run : α → Except String Bool) (movie : α) : Bool :=
  match run movie with
  | .error _ => false
  | .ok b => b

/-- `exprCompiler.Compile` (`filter.go:254`): trim the expression; empty
is a compilation error; consult the LRU cache (when enabled) under the
trimmed string; on a miss compile through the external engine
(`compileExpr` abstracts `expr.Compile` with the static environment) and,
on success, store the filter in the cache under the trimmed string.
Returns the result together with the new cache state. -/
def exprCompile (compileExpr : String → Except String Program) (cap' : Nat)
    (cache : Option (List (String × ExprFilterM))) (expression : String) :
    Except CompilationErrorM ExprFilterM × Option (List (String × ExprFilterM)) :=
  let expr' := trimSpaceM expression
  if expr' = "" then
    (.error ⟨expr', "empty expression", 0, none⟩, cache)
  else
    match cache with
    | some c =>
      match lruCache.Get expr' c with
      | (some f, c') => (.ok f, some c')
      | (none, _) =>
        match compileExpr expr' with
        | .error e => (.error ⟨expr', "failed to compile expression", 0, some e⟩, some c)
        | .ok prog => (.ok ⟨expr', prog⟩, some (lruCache.Put cap' expr' ⟨expr', prog⟩ c))
    | none =>
      match compileExpr expr' with
      | .error e => (.error ⟨expr', "failed to compile expression", 0, some e⟩, none)
      | .ok prog => (.ok ⟨expr', prog⟩, none)

/-! ## Legacy syntax converter (`compat.go`) -/

/-- `ConvertLegacyFilter` (`compat.go:10`): an empty (all-whitespace)
input converts to the empty string; otherwise the logical-operator
rewrites (`strings.ReplaceAll`) run first and then the ordered regex
pattern substitutions (`applyPatterns` abstracts the
`pattern.ReplaceAllStringFunc` stage, a pure string-to-string rewrite
with no error channel).  Mirrors Go's `(string, error)` result; every
return statement of the source carries a `nil` error. -/
def ConvertLegacyFilter (applyPatterns : String → String) (oldFilter : String) :
    String × Option String :=
  if trimSpaceM oldFilter = "" then ("", none)
  else
    let f := ((oldFilter.replace (" AND ") (" and ")).replace (" OR ") (" or ")).replace (" NOT ") (" not ")
    (applyPatterns f, none)

/-- The fixed list of legacy token markers of `IsLegacyFilter`
(`compat.go:88`). -/
def legacyPatterns : List String :=
  ["tag:", "watched_by:", "watch_count_by:", "watched:", "watch_count:",
   "added_before:", "added_after:", "imported_before:", "imported_after:"]

/-- `IsLegacyFilter` (`compat.go:87`). -/
def IsLegacyFilter (filter : String) : Bool :=
  legacyPatterns.any (fun pat => containsSubstrM filter pat)

/-- `ParseAndCreateFilter` (`filter.go:171`): an empty (all-whitespace)
expression yields, without error, the match-everything predicate;
otherwise a legacy expression is converted (a conversion error would be
wrapped and returned) and the result compiled through `CreateExprFilter`
(abstracted as `createExprFilter`). -/
def ParseAndCreateFilter (createExprFilter : String → Except String (α → Bool))
    (applyPatterns : String → String) (expression : String) :
    Except String (α → Bool) :=
  if trimSpaceM expression = "" then .ok (fun _ => true)
  else if IsLegacyFilter expression then
    match ConvertLegacyFilter applyPatterns expression with
    | (conv, none) => createExprFilter conv
    | (_, some e) => .error ("failed to convert legacy filter: " ++ e)
  else createExprFilter expression

/-! ## Filter manager (`manager.go`) -/

/-- One iteration of the compile-all loop of `RegisterFilters`
(`manager.go:71`): compile the expression and tag the result with the
filter's name, or surface the compilation error. -/
def compileEntry {Φ : Type u} (compile : String → Except CompilationErrorM Φ)
    (nf : String × String) : Except CompilationErrorM (String × Φ) :=
  match compile nf.2 with
  | .error e => .error e
  | .ok f => .ok (nf.1, f)

/-- Insert-or-overwrite of one registry entry, the effect of
`m.filters[name] = filter` under `maps.Copy`. -/
def setKey (k : String) (v : Φ) : List (String × Φ) → List (String × Φ)
  | [] => [(k, v)]
  | e :: es => if e.1 = k then (k, v) :: es else e :: setKey k v es

/-- `Manager.RegisterFilters` (`manager.go:67`): compile every expression
first (into the local `compiled` map); the first failure is returned and
the registry is left untouched; only when all compile does `maps.Copy`
commit every compiled filter to the registry.  Returns the Go error value
together with the registry after the call. -/
def RegisterFilters (compile : String → Except CompilationErrorM Φ)
    (registry : List (String × Φ)) (filters : List (String × String)) :
    Except CompilationErrorM Unit × List (String × Φ) :=
  match mapE (compileEntry compile) filters with
  | .error e => (.error e, registry)
  | .ok compiled => (.ok (), compiled.foldl (fun r nf => setKey nf.1 nf.2 r) registry)

/-- A sample runtime executor for witnesses: record `0` triggers a
runtime error, every other record evaluates to whether it is odd. -/
def runDemo : Nat → Except String Bool :=
  fun n => if n = 0 then .error ("boom") else .ok (decide (n % 2 = 1))

/-- A sample compiler for witnesses: the expression "bad" fails to
compile, everything else compiles to itself. -/
def compileDemo : String → Except CompilationErrorM String :=
  fun s =>
    if s = "bad" then .error ⟨s, "failed to compile expression", 0, none⟩ else .ok s

/-- A sample pre-existing registry for witnesses. -/
def registryDemo : List (String × String) := [("old", "v")]

/-- A batch with one bad expression (witness input). -/
def filtersBadDemo : List (String × String) := [("a", "x"), ("b", "bad")]

/-- A batch where every expression compiles (witness input). -/
def filtersGoodDemo : List (String × String) := [("a", "x"), ("c", "y")]

/-- Sample per-filter batch outcomes for witnesses: one succeeded filter,
one errored filter. -/
def rsDemo : List (BatchResultM Nat) :=
  [⟨"good", [1, 2], none⟩, ⟨"bad", [], some .canceled⟩]

/-! ## Supporting lemmas -/

theorem evaluateSequential_eq_filter (p : α → Bool) (l : List α) :
    evaluateSequential p l = l.filter p := by
  induction l with
  | nil => rfl
  | cons m ms ih =>
    by_cases h : p m <;> simp [evaluateSequential, List.filter_cons, h, ih]

theorem evaluateSequential_append (p : α → Bool) (l₁ l₂ : List α) :
    evaluateSequential p (l₁ ++ l₂) = evaluateSequential p l₁ ++ evaluateSequential p l₂ := by
  simp [evaluateSequential_eq_filter, List.filter_append]

theorem combineChunks_map_evalSeq (p : α → Bool) (L : List (List α)) :
    combineChunks (L.map (evaluateSequential p)) = evaluateSequential p (combineChunks L) := by
  induction L with
  | nil => rfl
  | cons c cs ih => simp [combineChunks, evaluateSequential_append, ih]

theorem chunkifyGo_combine (n : Nat) (hn : 1 ≤ n) :
    ∀ (fuel : Nat) (l : List α), l.length ≤ fuel → combineChunks (chunkifyGo n fuel l) = l := by
  intro fuel
  induction fuel with
  | zero =>
    intro l hl
    cases l with
    | nil => rfl
    | cons m ms => simp at hl
  | succ f ih =>
    intro l hl
    cases l with
    | nil => rfl
    | cons m ms =>
      have hlen : ((m :: ms).drop n).length ≤ f := by
        simp only [List.length_drop, List.length_cons] at *
        omega
      simp only [chunkifyGo, combineChunks, ih _ hlen]
      exact List.take_append_drop n (m :: ms)

theorem chunkify_combine (n : Nat) (hn : 1 ≤ n) (l : List α) :
    combineChunks (chunkify n l) = l :=
  chunkifyGo_combine n hn l.length l le_rfl

theorem batchOutcome_canceled (movies : List α) (w b : Int) (nf : String × (α → Bool)) :
    batchOutcome true movies w b nf = some ⟨nf.1, [], some .canceled⟩ := rfl

theorem mapO_batchOutcome_canceled (movies : List α) (w b : Int) :
    ∀ fs : List (String × (α → Bool)),
      mapO (batchOutcome true movies w b) fs =
        some (fs.map (fun nf => ⟨nf.1, [], some .canceled⟩)) := by
  intro fs
  induction fs with
  | nil => rfl
  | cons f fs ih => simp [mapO, batchOutcome_canceled, ih]

theorem collectBatchResults_all_canceled :
    ∀ fs : List (String × (α → Bool)),
      collectBatchResults (fs.map (fun nf => (⟨nf.1, [], some .canceled⟩ : BatchResultM α))) = [] := by
  intro fs
  induction fs with
  | nil => rfl
  | cons f fs ih => simp [collectBatchResults, ih]

/-! ## Claims -/

/-- C10: `ConvertLegacyFilter` returns a `nil` error on every input:
every return path of the source carries a `nil` error value, so
legacy-to-DSL conversion itself can never fail. -/
theorem c10_convertLegacyFilter_never_errors (applyPatterns : String → String) (s : String) :
    (ConvertLegacyFilter applyPatterns s).2 = none := by
  unfold ConvertLegacyFilter
  split <;> rfl

/-- C8: `Stop` is idempotent — a second `Stop` returns the state of the
first unchanged and a `nil` error — and `Submit` on a pool whose `Stop`
completed beforehand returns the sentinel pool-stopped error instead of
enqueuing (the hypothesis `onceFired → stopped` is the invariant every
pool reachable from `newWorkerPool` satisfies). -/
theorem c8_stop_idempotent_and_submit_after_stop :
    (∀ (p : PoolState W) (ctx1 ctx2 : Bool),
      workerPool.Stop (workerPool.Stop p ctx1).1 ctx2 = ((workerPool.Stop p ctx1).1, none)) ∧
    (∀ (p : PoolState W) (ctx : Bool) (w : W),
      (p.onceFired = true → p.stopped = true) →
      workerPool.Submit (workerPool.Stop p ctx).1 w = Except.error .poolStopped) := by
  constructor
  · intro p ctx1 ctx2
    unfold workerPool.Stop
    by_cases h : p.onceFired = true <;> simp [h]
  · intro p ctx w hp
    unfold workerPool.Stop workerPool.Submit
    by_cases h : p.onceFired = true <;> simp [h, hp]

/-- C8 witness: submitting to a freshly stopped pool is refused. -/
theorem c8_witness :
    ((newWorkerPool Unit).onceFired = true → (newWorkerPool Unit).stopped = true) ∧
    workerPool.Submit (workerPool.Stop (newWorkerPool Unit) false).1 () =
      Except.error .poolStopped :=
  ⟨by decide, c8_stop_idempotent_and_submit_after_stop.2 (newWorkerPool Unit) false () (by decide)⟩

/-- C2: `exprFilter.Evaluate` is a total boolean function of the record:
a runtime execution error yields `false` (record excluded) and is never
propagated, a successful run yields its boolean value, and a record whose
evaluation errors does not abort the sequential scan of the remaining
records. -/
theorem c2_runtime_error_excludes_record (run : α → Except String Bool) :
    (∀ (m : α) (e : String), run m = .error e → exprFilterEvaluate run m = false) ∧
    (∀ (m : α) (b : Bool), run m = .ok b → exprFilterEvaluate run m = b) ∧
    (∀ (pre : List α) (bad : α) (post : List α) (e : String), run bad = .error e →
      evaluateSequential (exprFilterEvaluate run) (pre ++ bad :: post) =
        evaluateSequential (exprFilterEvaluate run) pre ++
          evaluateSequential (exprFilterEvaluate run) post) := by
  refine ⟨?_, ?_, ?_⟩
  · intro m e h
    simp [exprFilterEvaluate, h]
  · intro m b h
    simp [exprFilterEvaluate, h]
  · intro pre bad post e h
    have hb : exprFilterEvaluate run bad = false := by simp [exprFilterEvaluate, h]
    rw [evaluateSequential_append]
    simp [evaluateSequential, hb]

/-- C2 witness: record `0` errors at runtime and is excluded while the
records around it are still evaluated. -/
theorem c2_witness :
    runDemo 0 = .error ("boom") ∧
    exprFilterEvaluate runDemo 0 = false ∧
    evaluateSequential (exprFilterEvaluate runDemo) ([1] ++ 0 :: [2, 3]) =
      evaluateSequential (exprFilterEvaluate runDemo) [1] ++
        evaluateSequential (exprFilterEvaluate runDemo) [2, 3] :=
  ⟨rfl, (c2_runtime_error_excludes_record runDemo).1 0 ("boom") rfl,
    (c2_runtime_error_excludes_record runDemo).2.2 [1] 0 [2, 3] ("boom") rfl⟩

/-- C1 counterexample: with batch-size threshold `0` (an allowed value of
the `WithBatchSize` knob, and within the claim's "every batch-size
threshold") and 2 workers on a 1-record list, the chunk size
`max(len/workers, batchSize)` is `0` and `evaluateConcurrent` panics with
an integer division by zero when sizing its result channel — the call
produces no result at all, while the sequential scan yields `[0]`. -/
theorem c1_counterexample_zero_batchsize :
    Evaluate false (fun _ : Nat => true) [0] 2 0 = none ∧
    evaluateSequential (fun _ : Nat => true) [0] = [0] := by
  constructor <;> rfl

/-- C1 (amended to positive batch-size thresholds): for every pure
record predicate, record list, worker count ≥ 1 and batch-size threshold
≥ 1, `Evaluate` — on the sequential path and on the chunked parallel path
alike — returns exactly the in-order sequential filter of the input:
parallel evaluation never reorders, drops, or duplicates matches. -/
theorem c1_parallel_refines_sequential (p : α → Bool) (movies : List α)
    (workerCount batchSize : Int) (_hw : 1 ≤ workerCount) (hb : 1 ≤ batchSize) :
    Evaluate false p movies workerCount batchSize = some (.ok (movies.filter p)) ∧
    evaluateSequential p movies = movies.filter p := by
  refine ⟨?_, evaluateSequential_eq_filter p movies⟩
  unfold Evaluate
  by_cases h0 : movies.length = 0
  · rw [List.length_eq_zero] at h0
    subst h0
    simp
  · rw [if_neg h0]
    by_cases hseq : (movies.length : Int) < batchSize
    · rw [if_pos hseq, evaluateSequential_eq_filter]
    · rw [if_neg hseq]
      unfold evaluateConcurrent
      have h1 : 1 ≤ max (Int.tdiv (movies.length : Int) workerCount) batchSize :=
        le_trans hb (le_max_right _ _)
      have h2 : ¬ max (Int.tdiv (movies.length : Int) workerCount) batchSize ≤ 0 := by omega
      have h3 : 1 ≤ (max (Int.tdiv (movies.length : Int) workerCount) batchSize).toNat := by
        omega
      simp only [h2, if_false, Bool.false_eq_true,
        combineChunks_map_evalSeq, chunkify_combine _ h3, evaluateSequential_eq_filter]

/-- C1 witness: a five-record list with threshold 2 and two workers takes
the chunked path and still returns the in-order filter result. -/
theorem c1_witness :
    (1 : Int) ≤ 2 ∧ (1 : Int) ≤ 2 ∧
    (Evaluate false (fun n : Nat => decide (n % 2 = 0)) [0, 1, 2, 3, 4] 2 2 =
        some (.ok ([0, 1, 2, 3, 4].filter (fun n : Nat => decide (n % 2 = 0)))) ∧
      evaluateSequential (fun n : Nat => decide (n % 2 = 0)) [0, 1, 2, 3, 4] =
        [0, 1, 2, 3, 4].filter (fun n : Nat => decide (n % 2 = 0))) :=
  ⟨by decide, by decide,
    c1_parallel_refines_sequential (fun n : Nat => decide (n % 2 = 0)) [0, 1, 2, 3, 4] 2 2
      (by decide) (by decide)⟩

/-- C3 counterexample: with the cancellation signal fired before any
filter reports, `EvaluateBatch` does not return a cancellation error — it
skips every (cancelled) filter exactly like a failed one and returns the
empty result map as success, indistinguishable from "no matches". -/
theorem c3_counterexample_batch_swallows_cancellation :
    EvaluateBatch true [("f", fun _ : Nat => true)] [0] 1 1 = some (.ok []) ∧
    ∀ e : PoolError,
      (some (Except.ok ([] : List (String × List Nat))) :
          Option (Except PoolError (List (String × List Nat)))) ≠ some (.error e) := by
  constructor
  · rfl
  · intro e h
    simp at h

/-- C3 (amended): on the chunked parallel path, `Evaluate` with a fired
cancellation signal returns the explicit cancellation error and a nil
match list; `EvaluateBatch`, however, treats cancelled per-filter tasks
like failed filters — it omits them from the result map and returns the
remaining (here: empty) map with a `nil` error. -/
theorem c3_cancellation_amended :
    (∀ (p : α → Bool) (movies : List α) (w b : Int),
      movies ≠ [] → 1 ≤ w → 1 ≤ b → b ≤ (movies.length : Int) →
      Evaluate true p movies w b = some (.error .canceled)) ∧
    (∀ (filters : List (String × (α → Bool))) (movies : List α) (w b : Int),
      EvaluateBatch true filters movies w b = some (.ok [])) := by
  constructor
  · intro p movies w b hne hw hb hlen
    unfold Evaluate
    have h0 : movies.length ≠ 0 := by
      simpa [List.length_eq_zero] using hne
    rw [if_neg h0, if_neg (by omega)]
    unfold evaluateConcurrent
    have h2 : ¬ max (Int.tdiv (movies.length : Int) w) b ≤ 0 := by
      have := le_max_right (Int.tdiv (movies.length : Int) w) b
      omega
    simp [h2]
  · intro filters movies w b
    unfold EvaluateBatch
    by_cases h : (filters.isEmpty || movies.isEmpty) = true
    · rw [if_pos h]
    · rw [if_neg h, mapO_batchOutcome_canceled]
      simp [collectBatchResults_all_canceled]

/-- C3 witness: a pre-fired cancellation on a one-chunk parallel run
yields the explicit cancellation error. -/
theorem c3_witness :
    ([0] ≠ ([] : List Nat)) ∧ (1 : Int) ≤ 1 ∧ (1 : Int) ≤ 1 ∧
    (1 : Int) ≤ (([0] : List Nat).length : Int) ∧
    Evaluate true (fun _ : Nat => true) [0] 1 1 = some (.error .canceled) :=
  ⟨by decide, by decide, by decide, by decide,
    (@c3_cancellation_amended Nat).1 (fun _ => true) [0] 1 1 (by decide) (by decide)
      (by decide) (by decide)⟩

/-- C9: the two compilation entry points treat an empty (all-whitespace)
expression differently: `exprCompiler.Compile` returns a compilation
error with reason "empty expression" and an untouched cache, while
`ParseAndCreateFilter` returns, without error, a predicate matching every
record. -/
theorem c9_empty_expression_entry_points
    (createExprFilter : String → Except String (α → Bool)) (applyPatterns : String → String)
    (compileExpr : String → Except String Program) (cap' : Nat)
    (cache : Option (List (String × ExprFilterM))) (s : String) (h : trimSpaceM s = "") :
    (exprCompile compileExpr cap' cache s).1 =
      .error ⟨"", "empty expression", 0, none⟩ ∧
    (exprCompile compileExpr cap' cache s).2 = cache ∧
    ∃ f : α → Bool,
      ParseAndCreateFilter createExprFilter applyPatterns s = .ok f ∧ ∀ r, f r = true := by
  refine ⟨?_, ?_, fun _ => true, ?_, fun r => rfl⟩
  · unfold exprCompile
    simp [h]
  · unfold exprCompile
    simp [h]
  · unfold ParseAndCreateFilter
    simp [h]

/-- C9 witness: the all-whitespace expression. -/
theorem c9_witness :
    trimSpaceM ("   ") = "" ∧
    ((exprCompile (fun _ => .error ("unused")) 0 none "   ").1 =
        .error ⟨"", "empty expression", 0, none⟩ ∧
      (exprCompile (fun _ => .error ("unused")) 0 none "   ").2 = none ∧
      ∃ f : Nat → Bool,
        ParseAndCreateFilter (fun _ => .error ("unused")) id "   " = .ok f ∧ ∀ r, f r = true) :=
  ⟨by decide,
    c9_empty_expression_entry_points (fun _ => .error ("unused")) id
      (fun _ => .error ("unused")) 0 none "   " (by decide)⟩

/-! ## LRU cache lemmas (claim C5) -/

theorem findVal_eq_none_iff (k : String) (s : List (String × V)) :
    findVal k s = none ↔ ∀ e ∈ s, e.1 ≠ k := by
  induction s with
  | nil => simp [findVal]
  | cons e es ih =>
    by_cases h : e.1 = k <;> simp [findVal, h, ih]

theorem findVal_isSome_iff (k : String) (s : List (String × V)) :
    (findVal k s).isSome = true ↔ ∃ e ∈ s, e.1 = k := by
  induction s with
  | nil => simp [findVal]
  | cons e es ih =>
    by_cases h : e.1 = k <;> simp [findVal, h, ih]

theorem removeKey_length (k : String) (s : List (String × V))
    (h : (findVal k s).isSome = true) : (removeKey k s).length + 1 = s.length := by
  induction s with
  | nil => simp [findVal] at h
  | cons e es ih =>
    by_cases hek : e.1 = k
    · simp [removeKey, hek]
    · simp only [findVal, hek, if_false] at h
      simp [removeKey, hek, ih h]

theorem lruGet_snd_length (k : String) (s : List (String × V)) :
    ((lruCache.Get k s).2).length = s.length := by
  unfold lruCache.Get
  cases hf : findVal k s with
  | none => rfl
  | some v =>
    have : (findVal k s).isSome = true := by simp [hf]
    simp [removeKey_length k s this]

theorem lruPut_length_le (cap' : Nat) (k : String) (v : V) (s : List (String × V))
    (h : s.length ≤ cap') : (lruCache.Put cap' k v s).length ≤ cap' := by
  unfold lruCache.Put
  cases hf : findVal k s with
  | some v₀ =>
    have hs : (findVal k s).isSome = true := by simp [hf]
    have := removeKey_length k s hs
    simp only [List.length_cons]
    omega
  | none =>
    simp only [lruCache.removeOldest]
    split
    next hov =>
      simp only [List.length_dropLast, List.length_cons]
      omega
    next hov =>
      simp only [List.length_cons] at hov ⊢
      omega

theorem runOps_length_le (cap' : Nat) :
    ∀ (ops : List (LRUOp V)) (s : List (String × V)),
      s.length ≤ cap' → (runOps cap' ops s).length ≤ cap' := by
  intro ops
  induction ops with
  | nil => intro s h; exact h
  | cons op ops ih =>
    intro s h
    cases op with
    | get k =>
      exact ih _ (by rw [lruGet_snd_length]; exact h)
    | put k v =>
      exact ih _ (lruPut_length_le cap' k v s h)
    | clear =>
      exact ih _ (by simp [lruCache.Clear])

theorem putAll_fresh (cap' : Nat) (v : V) :
    ∀ (ks : List String) (s : List (String × V)),
      ks.Nodup → (∀ k ∈ ks, findVal k s = none) → s.length + ks.length ≤ cap' →
      putAll cap' v ks s = (ks.map (fun k => (k, v))).reverse ++ s := by
  intro ks
  induction ks with
  | nil => intro s _ _ _; simp [putAll]
  | cons k ks ih =>
    intro s hnd hfresh hlen
    have hk : findVal k s = none := hfresh k (List.mem_cons_self k ks)
    have hput : lruCache.Put cap' k v s = (k, v) :: s := by
      unfold lruCache.Put
      rw [hk]
      have hno : ¬ ((k, v) :: s).length > cap' := by
        simp only [List.length_cons]
        simp only [List.length_cons] at hlen
        omega
      rw [if_neg hno]
    have hnd' : ks.Nodup := (List.nodup_cons.mp hnd).2
    have hknotin : k ∉ ks := (List.nodup_cons.mp hnd).1
    have hfresh' : ∀ k' ∈ ks, findVal k' ((k, v) :: s) = none := by
      intro k' hk'
      have hne : ¬ ((k, v).1 = k') := by
        intro heq
        have heq' : k = k' := heq
        exact hknotin (heq' ▸ hk')
      simp only [findVal, hne, if_false]
      exact hfresh k' (List.mem_cons_of_mem k hk')
    have hlen' : ((k, v) :: s).length + ks.length ≤ cap' := by
      simp only [List.length_cons]
      simp only [List.length_cons] at hlen
      omega
    calc putAll cap' v (k :: ks) s = putAll cap' v ks ((k, v) :: s) := by
          simp [putAll, hput]
      _ = (ks.map (fun k => (k, v))).reverse ++ ((k, v) :: s) := ih _ hnd' hfresh' hlen'
      _ = ((k :: ks).map (fun k => (k, v))).reverse ++ s := by
          simp

theorem dropLast_cons_ne_nil {β : Type u} (a : β) (l : List β) (h : l ≠ []) :
    (a :: l).dropLast = a :: l.dropLast := by
  cases l with
  | nil => exact absurd rfl h
  | cons b t => rfl

/-- C5: for every capacity `C ≥ 1`, (i) `Size` never exceeds `C` over any
`Get`/`Put`/`Clear` sequence from the empty cache; (ii) inserting `C+1`
distinct keys leaves `Size = C`, evicts exactly the first (least recently
used) key and keeps every other key; (iii) `Get` and `Put` on an existing
key promote that entry to the most-recently-used (front) position; and
(iv) a just-promoted entry is never the eviction victim of a subsequent
insert (for `C ≥ 2`). -/
theorem c5_lru_bounded_promotes_and_evicts_lru (cap' : Nat) (hcap : 1 ≤ cap') :
    (∀ ops : List (LRUOp V), lruCache.Size (runOps cap' ops []) ≤ cap') ∧
    (∀ (v : V) (k₀ klast : String) (rest : List String),
      ((k₀ :: rest) ++ [klast]).Nodup → (k₀ :: rest).length = cap' →
      lruCache.Size (putAll cap' v ((k₀ :: rest) ++ [klast]) []) = cap' ∧
      findVal k₀ (putAll cap' v ((k₀ :: rest) ++ [klast]) []) = none ∧
      (∀ k ∈ rest ++ [klast],
        (findVal k (putAll cap' v ((k₀ :: rest) ++ [klast]) [])).isSome = true)) ∧
    (∀ (k : String) (v : V) (s : List (String × V)), (findVal k s).isSome = true →
      (∃ v₀, (lruCache.Get k s).2.head? = some (k, v₀)) ∧
      (lruCache.Put cap' k v s).head? = some (k, v)) ∧
    (∀ (k k' : String) (v' : V) (s : List (String × V)),
      2 ≤ cap' → s.length ≤ cap' → (findVal k s).isSome = true →
      findVal k' (lruCache.Get k s).2 = none →
      (findVal k (lruCache.Put cap' k' v' (lruCache.Get k s).2)).isSome = true) := by
  refine ⟨?_, ?_, ?_, ?_⟩
  · intro ops
    exact runOps_length_le cap' ops [] (by simp [lruCache.Size])
  · intro v k₀ klast rest hnd hlen
    obtain ⟨hnd1, _, hdisj⟩ := List.nodup_append.mp hnd
    have hklast_not : klast ∉ k₀ :: rest := by
      intro hk
      exact hdisj hk (by simp)
    have hsplit : putAll cap' v ((k₀ :: rest) ++ [klast]) [] =
        lruCache.Put cap' klast v (putAll cap' v (k₀ :: rest) []) := by
      have : ∀ (l₁ : List String) (s : List (String × V)),
          putAll cap' v (l₁ ++ [klast]) s = lruCache.Put cap' klast v (putAll cap' v l₁ s) := by
        intro l₁
        induction l₁ with
        | nil => intro s; simp [putAll]
        | cons a t ih => intro s; simp [putAll, ih]
      exact this _ _
    have hS : putAll cap' v (k₀ :: rest) [] =
        ((k₀ :: rest).map (fun k => (k, v))).reverse := by
      have := putAll_fresh cap' v (k₀ :: rest) [] hnd1 (fun _ _ => rfl)
        (by simp [hlen])
      simpa using this
    have hfindS : findVal klast (putAll cap' v (k₀ :: rest) []) = none := by
      rw [hS, findVal_eq_none_iff]
      intro e he
      rw [List.mem_reverse, List.mem_map] at he
      obtain ⟨kk, hkk, rfl⟩ := he
      intro heq
      exact hklast_not (heq ▸ hkk)
    have hlenS : (putAll cap' v (k₀ :: rest) []).length = cap' := by
      rw [hS]
      simpa using hlen
    have hSne : putAll cap' v (k₀ :: rest) [] ≠ [] := by
      intro hnil
      rw [hnil] at hlenS
      simp at hlenS
      omega
    have hfin : putAll cap' v ((k₀ :: rest) ++ [klast]) [] =
        (klast, v) :: (rest.map (fun k => (k, v))).reverse := by
      rw [hsplit]
      unfold lruCache.Put
      rw [hfindS]
      have hov : ((klast, v) :: putAll cap' v (k₀ :: rest) []).length > cap' := by
        simp [hlenS]
      simp only [hov, if_true, lruCache.removeOldest]
      rw [dropLast_cons_ne_nil _ _ hSne, hS]
      simp [List.dropLast_concat]
    rw [hfin]
    have hlenrest : rest.length + 1 = cap' := by
      simpa using hlen
    refine ⟨?_, ?_, ?_⟩
    · simp [lruCache.Size]
      omega
    · have hne0 : ¬ ((klast, v).1 = k₀) := by
        intro heq
        have heq' : klast = k₀ := heq
        exact hklast_not (by rw [heq']; exact List.mem_cons_self k₀ rest)
      simp only [findVal, hne0, if_false]
      rw [findVal_eq_none_iff]
      intro e he
      rw [List.mem_reverse, List.mem_map] at he
      obtain ⟨kk, hkk, rfl⟩ := he
      intro heq
      exact (List.nodup_cons.mp hnd1).1 (heq ▸ hkk)
    · intro k hk
      rcases List.mem_append.mp hk with hkr | hkl
      · have hne : ¬ ((klast, v).1 = k) := by
          intro heq
          have heq' : klast = k := heq
          exact hklast_not (heq' ▸ List.mem_cons_of_mem k₀ hkr)
        simp only [findVal, hne, if_false]
        rw [findVal_isSome_iff]
        exact ⟨(k, v), by simp [List.mem_reverse, List.mem_map, hkr], rfl⟩
      · rw [List.mem_singleton] at hkl
        subst hkl
        simp [findVal]
  · intro k v s hk
    obtain ⟨v₀, hv₀⟩ := Option.isSome_iff_exists.mp hk
    constructor
    · exact ⟨v₀, by simp [lruCache.Get, hv₀]⟩
    · simp [lruCache.Put, hv₀]
  · intro k k' v' s hcap2 hslen hk hk'
    obtain ⟨vk, hvk⟩ := Option.isSome_iff_exists.mp hk
    have hGet : (lruCache.Get k s).2 = (k, vk) :: removeKey k s := by
      simp [lruCache.Get, hvk]
    have hkk' : ¬ ((k', v').1 = k) := by
      intro heq
      have heq' : k' = k := heq
      rw [hGet, findVal_eq_none_iff] at hk'
      exact hk' (k, vk) (by simp) heq'.symm
    unfold lruCache.Put
    rw [hk']
    by_cases hov : ((k', v') :: (lruCache.Get k s).2).length > cap'
    · simp only [hov, if_true, lruCache.removeOldest]
      have hrk : removeKey k s ≠ [] := by
        have h1 := removeKey_length k s hk
        have h2 : s.length + 1 > cap' := by
          have := lruGet_snd_length k s
          simp only [List.length_cons, this] at hov
          omega
        intro hnil
        rw [hnil] at h1
        simp at h1
        omega
      rw [hGet, dropLast_cons_ne_nil _ _ (by simp [hrk]),
        dropLast_cons_ne_nil _ _ hrk]
      simp only [findVal, hkk', if_false, if_pos rfl]
      rfl
    · simp only [hov, if_false]
      simp only [findVal, hkk', if_false]
      rw [hGet]
      simp [findVal]

/-- C5 witness: capacity 2, a concrete operation sequence, three distinct
keys, and a concrete promotion scenario. -/
theorem c5_witness :
    1 ≤ 2 ∧
    lruCache.Size (runOps 2 [.put ("a") 1, .put ("b") 2, .get ("a"), .put ("c") 3] []) ≤ 2 ∧
    ((["a", "b"] ++ ["c"] : List String).Nodup ∧ (["a", "b"] : List String).length = 2 ∧
      lruCache.Size (putAll 2 (0 : Nat) (["a", "b"] ++ ["c"]) []) = 2 ∧
      findVal ("a") (putAll 2 (0 : Nat) (["a", "b"] ++ ["c"]) []) = none ∧
      (∀ k ∈ (["b"] ++ ["c"] : List String),
        (findVal k (putAll 2 (0 : Nat) (["a", "b"] ++ ["c"]) [])).isSome = true)) ∧
    ((∃ v₀, (lruCache.Get ("a") [("b", 1), ("a", 2)]).2.head? = some (("a"), v₀)) ∧
      (lruCache.Put 2 ("a") 5 [("b", 1), ("a", 2)]).head? = some (("a"), 5)) ∧
    (findVal ("a")
        (lruCache.Put 2 ("c") 7 (lruCache.Get ("a") [("a", 1), ("b", 2)]).2)).isSome = true :=
  ⟨by decide,
    (c5_lru_bounded_promotes_and_evicts_lru 2 (by decide)).1
      [.put ("a") 1, .put ("b") 2, .get ("a"), .put ("c") 3],
    ⟨by decide, by decide,
      (c5_lru_bounded_promotes_and_evicts_lru 2 (by decide)).2.1 0 ("a") ("c") ["b"]
        (by decide) (by decide)⟩,
    (c5_lru_bounded_promotes_and_evicts_lru 2 (by decide)).2.2.1 ("a") 5 [("b", 1), ("a", 2)]
      (by decide),
    (c5_lru_bounded_promotes_and_evicts_lru 2 (by decide)).2.2.2 ("a") ("c") 7 [("a", 1), ("b", 2)]
      (by decide) (by decide) (by decide) (by decide)⟩

/-! ## Compiler cache-key lemmas (claim C4) -/

theorem exprCompile_miss_ok (ce : String → Except String Program) (cap' : Nat)
    (c : List (String × ExprFilterM)) (e : String) (p : Program)
    (hne : trimSpaceM e ≠ "") (hmiss : findVal (trimSpaceM e) c = none)
    (hok : ce (trimSpaceM e) = .ok p) :
    exprCompile ce cap' (some c) e =
      (.ok ⟨trimSpaceM e, p⟩,
        some (lruCache.Put cap' (trimSpaceM e) ⟨trimSpaceM e, p⟩ c)) := by
  have hget : lruCache.Get (trimSpaceM e) c = (none, c) := by
    simp [lruCache.Get, hmiss]
  simp only [exprCompile, if_neg hne, hget, hok]

/-- C4 counterexample: the expressions `"x"` and `" x"` differ only in
whitespace, yet after compiling `"x"` the call on `" x"` is a cache hit on
the same single entry: `Compile` trims the expression before keying the
cache, so whitespace-differing expressions do not occupy distinct
entries. -/
theorem c4_counterexample_whitespace_shares_entry :
    (" x" ≠ "x") ∧
    (exprCompile (fun s => Except.ok ⟨s⟩) 10 (some []) ("x")).2 =
      some [("x", ⟨"x", ⟨"x"⟩⟩)] ∧
    (exprCompile (fun s => Except.ok ⟨s⟩) 10
        ((exprCompile (fun s => Except.ok ⟨s⟩) 10 (some []) ("x")).2) (" x")).1 =
      .ok ⟨"x", ⟨"x"⟩⟩ ∧
    (exprCompile (fun s => Except.ok ⟨s⟩) 10
        ((exprCompile (fun s => Except.ok ⟨s⟩) 10 (some []) ("x")).2) (" x")).2 =
      some [("x", ⟨"x", ⟨"x"⟩⟩)] :=
  ⟨by decide, rfl, rfl, rfl⟩

/-- C4 (amended): the compiler's cache key is the *trimmed* expression
string: expressions equal after trimming share one cache entry (identical
compile behaviour), a cache probe is an exact string match on the stored
(trimmed) key, and two expressions whose trimmed forms differ occupy two
distinct cache entries keyed by their trimmed strings. -/
theorem c4_cache_key_is_trimmed_expression :
    (∀ (ce : String → Except String Program) (cap' : Nat)
        (cache : Option (List (String × ExprFilterM))) (e₁ e₂ : String),
      trimSpaceM e₁ = trimSpaceM e₂ →
      exprCompile ce cap' cache e₁ = exprCompile ce cap' cache e₂) ∧
    (∀ (k : String) (c : List (String × ExprFilterM)),
      (lruCache.Get k c).1 = findVal k c) ∧
    (∀ (ce : String → Except String Program) (cap' : Nat) (e₁ e₂ : String) (p₁ p₂ : Program),
      2 ≤ cap' → trimSpaceM e₁ ≠ "" → trimSpaceM e₂ ≠ "" →
      trimSpaceM e₁ ≠ trimSpaceM e₂ →
      ce (trimSpaceM e₁) = .ok p₁ → ce (trimSpaceM e₂) = .ok p₂ →
      (exprCompile ce cap' ((exprCompile ce cap' (some []) e₁).2) e₂).2 =
        some [(trimSpaceM e₂, ⟨trimSpaceM e₂, p₂⟩),
          (trimSpaceM e₁, ⟨trimSpaceM e₁, p₁⟩)]) := by
  refine ⟨?_, ?_, ?_⟩
  · intro ce cap' cache e₁ e₂ h
    simp only [exprCompile]
    rw [h]
  · intro k c
    unfold lruCache.Get
    cases hf : findVal k c <;> simp
  · intro ce cap' e₁ e₂ p₁ p₂ hcap2 hne₁ hne₂ htrim hok₁ hok₂
    have h1 := exprCompile_miss_ok ce cap' [] e₁ p₁ hne₁ rfl hok₁
    have hput1 : lruCache.Put cap' (trimSpaceM e₁) (⟨trimSpaceM e₁, p₁⟩ : ExprFilterM) [] =
        [(trimSpaceM e₁, ⟨trimSpaceM e₁, p₁⟩)] := by
      unfold lruCache.Put
      simp only [findVal]
      rw [if_neg (by simp; omega)]
    have hmiss2 : findVal (trimSpaceM e₂)
        [(trimSpaceM e₁, (⟨trimSpaceM e₁, p₁⟩ : ExprFilterM))] = none := by
      simp only [findVal]
      rw [if_neg htrim]
    have h2 := exprCompile_miss_ok ce cap' [(trimSpaceM e₁, ⟨trimSpaceM e₁, p₁⟩)] e₂ p₂
      hne₂ hmiss2 hok₂
    have hput2 : lruCache.Put cap' (trimSpaceM e₂) (⟨trimSpaceM e₂, p₂⟩ : ExprFilterM)
        [(trimSpaceM e₁, (⟨trimSpaceM e₁, p₁⟩ : ExprFilterM))] =
        [(trimSpaceM e₂, ⟨trimSpaceM e₂, p₂⟩), (trimSpaceM e₁, ⟨trimSpaceM e₁, p₁⟩)] := by
      unfold lruCache.Put
      rw [hmiss2]
      simp only [List.length_cons, List.length_nil]
      rw [if_neg (by omega)]
    rw [h1, hput1, h2, hput2]

/-- C4 witness: whitespace-equal expressions share behaviour, probes are
exact matches, and post-trim-distinct expressions get distinct entries. -/
theorem c4_witness :
    (trimSpaceM ("x") = trimSpaceM (" x")) ∧
    (exprCompile (fun s => Except.ok ⟨s⟩) 2 (some []) ("x") =
      exprCompile (fun s => Except.ok ⟨s⟩) 2 (some []) (" x")) ∧
    ((lruCache.Get ("a") [("a", (⟨"a", ⟨"a"⟩⟩ : ExprFilterM))]).1 =
      findVal ("a") [("a", ⟨"a", ⟨"a"⟩⟩)]) ∧
    (2 ≤ 2 ∧ trimSpaceM ("a") ≠ "" ∧ trimSpaceM (" b ") ≠ "" ∧
      trimSpaceM ("a") ≠ trimSpaceM (" b ") ∧
      (exprCompile (fun s => Except.ok ⟨s⟩) 2
          ((exprCompile (fun s => Except.ok ⟨s⟩) 2 (some []) ("a")).2) (" b ")).2 =
        some [(trimSpaceM (" b "), ⟨trimSpaceM (" b "), ⟨trimSpaceM (" b ")⟩⟩),
          (trimSpaceM ("a"), ⟨trimSpaceM ("a"), ⟨trimSpaceM ("a")⟩⟩)]) :=
  ⟨by decide,
    c4_cache_key_is_trimmed_expression.1 (fun s => Except.ok ⟨s⟩) 2 (some []) ("x") (" x")
      (by decide),
    c4_cache_key_is_trimmed_expression.2.1 ("a") [("a", ⟨"a", ⟨"a"⟩⟩)],
    ⟨by decide, by decide, by decide, by decide,
      c4_cache_key_is_trimmed_expression.2.2 (fun s => Except.ok ⟨s⟩) 2 ("a") (" b ")
        (Program.mk (trimSpaceM ("a"))) (Program.mk (trimSpaceM (" b "))) (by decide)
        (by decide) (by decide) (by decide) rfl rfl⟩⟩

/-! ## Manager registration lemmas (claim C6) -/

theorem mapE_error_of_exists {Φ : Type u} (compile : String → Except CompilationErrorM Φ) :
    ∀ fs : List (String × String),
      (∃ p ∈ fs, ∃ e, compile p.2 = .error e) →
      ∃ e, mapE (compileEntry compile) fs = .error e := by
  intro fs
  induction fs with
  | nil =>
    intro h
    obtain ⟨p, hp, _⟩ := h
    simp at hp
  | cons a t ih =>
    intro h
    obtain ⟨p, hp, e, he⟩ := h
    rcases List.mem_cons.mp hp with rfl | hpt
    · exact ⟨e, by simp [mapE, compileEntry, he]⟩
    · cases hc : compile a.2 with
      | error e' => exact ⟨e', by simp [mapE, compileEntry, hc]⟩
      | ok c =>
        obtain ⟨e'', he''⟩ := ih ⟨p, hpt, e, he⟩
        exact ⟨e'', by simp [mapE, compileEntry, hc, he'']⟩

theorem mapE_ok_of_all {Φ : Type u} (compile : String → Except CompilationErrorM Φ) :
    ∀ fs : List (String × String),
      (∀ p ∈ fs, ∃ f, compile p.2 = .ok f) →
      ∃ l, mapE (compileEntry compile) fs = .ok l ∧
        l.map Prod.fst = fs.map Prod.fst ∧
        (∀ p ∈ fs, ∀ f, compile p.2 = .ok f → (p.1, f) ∈ l) := by
  intro fs
  induction fs with
  | nil => intro _; exact ⟨[], rfl, rfl, by simp⟩
  | cons a t ih =>
    intro hall
    obtain ⟨fa, hfa⟩ := hall a (List.mem_cons_self a t)
    obtain ⟨l, hl, hmap, hmem⟩ := ih (fun p hp => hall p (List.mem_cons_of_mem a hp))
    refine ⟨(a.1, fa) :: l, ?_, ?_, ?_⟩
    · simp [mapE, compileEntry, hfa, hl]
    · simp [hmap]
    · intro p hp f hf
      rcases List.mem_cons.mp hp with rfl | hpt
      · have : f = fa := by
          rw [hfa] at hf
          exact (Except.ok.inj hf).symm
        exact this ▸ List.mem_cons_self _ _
      · exact List.mem_cons_of_mem _ (hmem p hpt f hf)

theorem findVal_setKey_self (k : String) (v : Φ) :
    ∀ r : List (String × Φ), findVal k (setKey k v r) = some v := by
  intro r
  induction r with
  | nil => simp [setKey, findVal]
  | cons e es ih =>
    by_cases h : e.1 = k <;> simp [setKey, findVal, h, ih]

theorem findVal_setKey_ne (name k : String) (v : Φ) (h : name ≠ k) :
    ∀ r : List (String × Φ), findVal name (setKey k v r) = findVal name r := by
  intro r
  induction r with
  | nil =>
    have hkn : ¬ (k = name) := fun heq => h heq.symm
    simp [setKey, findVal, hkn]
  | cons e es ih =>
    by_cases he : e.1 = k
    · have hne : ¬ (k = name) := fun heq => h heq.symm
      have hne' : ¬ (e.1 = name) := by
        rw [he]
        exact hne
      simp [setKey, findVal, he, hne, hne']
    · simp [setKey, findVal, he, ih]

theorem findVal_commit_not_mem (name : String) :
    ∀ (l : List (String × Φ)) (r : List (String × Φ)),
      name ∉ l.map Prod.fst →
      findVal name (l.foldl (fun r nf => setKey nf.1 nf.2 r) r) = findVal name r := by
  intro l
  induction l with
  | nil => intro r _; rfl
  | cons a t ih =>
    intro r hn
    simp only [List.map_cons, List.mem_cons] at hn
    push_neg at hn
    simp only [List.foldl_cons]
    rw [ih _ hn.2, findVal_setKey_ne name a.1 a.2 hn.1]

theorem findVal_commit_mem :
    ∀ (l : List (String × Φ)) (r : List (String × Φ)),
      (l.map Prod.fst).Nodup →
      ∀ p ∈ l, findVal p.1 (l.foldl (fun r nf => setKey nf.1 nf.2 r) r) = some p.2 := by
  intro l
  induction l with
  | nil => intro r _ p hp; simp at hp
  | cons a t ih =>
    intro r hnd p hp
    simp only [List.map_cons, List.nodup_cons] at hnd
    simp only [List.foldl_cons]
    rcases List.mem_cons.mp hp with rfl | hpt
    · rw [findVal_commit_not_mem p.1 t _ hnd.1, findVal_setKey_self]
    · exact ih _ hnd.2 p hpt

/-- C6: `RegisterFilters` is atomic: if any expression fails to compile,
the call returns a compilation error and the registry is exactly as
before; if every expression compiles, the call succeeds, every submitted
name maps to its compiled filter (for distinct names) and every other
name is untouched. -/
theorem c6_registerFilters_atomic {Φ : Type u}
    (compile : String → Except CompilationErrorM Φ)
    (registry : List (String × Φ)) (filters : List (String × String)) :
    ((∃ p ∈ filters, ∃ e, compile p.2 = .error e) →
      (RegisterFilters compile registry filters).2 = registry ∧
      ∃ e, (RegisterFilters compile registry filters).1 = .error e) ∧
    ((∀ p ∈ filters, ∃ f, compile p.2 = .ok f) →
      (RegisterFilters compile registry filters).1 = .ok () ∧
      (∀ name, name ∉ filters.map Prod.fst →
        findVal name (RegisterFilters compile registry filters).2 = findVal name registry) ∧
      ((filters.map Prod.fst).Nodup →
        ∀ p ∈ filters, ∀ f, compile p.2 = .ok f →
          findVal p.1 (RegisterFilters compile registry filters).2 = some f)) := by
  constructor
  · intro hex
    obtain ⟨e, he⟩ := mapE_error_of_exists compile filters hex
    unfold RegisterFilters
    rw [he]
    exact ⟨rfl, e, rfl⟩
  · intro hall
    obtain ⟨l, hl, hmap, hmem⟩ := mapE_ok_of_all compile filters hall
    unfold RegisterFilters
    rw [hl]
    refine ⟨rfl, ?_, ?_⟩
    · intro name hn
      exact findVal_commit_not_mem name l registry (hmap ▸ hn)
    · intro hnd p hp f hf
      exact findVal_commit_mem l registry (hmap ▸ hnd) (p.1, f) (hmem p hp f hf)

/-- C6 witness: a batch containing the uncompilable expression leaves the
registry untouched and errors; an all-good batch commits and preserves
unrelated entries. -/
theorem c6_witness :
    ((RegisterFilters compileDemo registryDemo filtersBadDemo).2 = registryDemo ∧
      ∃ e, (RegisterFilters compileDemo registryDemo filtersBadDemo).1 = .error e) ∧
    ((RegisterFilters compileDemo registryDemo filtersGoodDemo).1 = .ok () ∧
      (∀ name, name ∉ filtersGoodDemo.map Prod.fst →
        findVal name (RegisterFilters compileDemo registryDemo filtersGoodDemo).2 =
          findVal name registryDemo) ∧
      ((filtersGoodDemo.map Prod.fst).Nodup →
        ∀ p ∈ filtersGoodDemo, ∀ f, compileDemo p.2 = .ok f →
          findVal p.1 (RegisterFilters compileDemo registryDemo filtersGoodDemo).2 = some f)) :=
  ⟨(c6_registerFilters_atomic compileDemo registryDemo filtersBadDemo).1
      ⟨("b", "bad"), by decide, ⟨"bad", "failed to compile expression", 0, none⟩, rfl⟩,
    (c6_registerFilters_atomic compileDemo registryDemo filtersGoodDemo).2
      (by
        intro p hp
        simp only [filtersGoodDemo, List.mem_cons, List.not_mem_nil, or_false] at hp
        rcases hp with rfl | rfl
        · exact ⟨"x", rfl⟩
        · exact ⟨"y", rfl⟩)⟩

/-! ## Batch collection lemmas (claim C7) -/

theorem collect_fst_mem :
    ∀ (rs : List (BatchResultM α)) (q : String × List α),
      q ∈ collectBatchResults rs → q.1 ∈ rs.map BatchResultM.FilterName := by
  intro rs
  induction rs with
  | nil => intro q hq; simp [collectBatchResults] at hq
  | cons r0 rs ih =>
    intro q hq
    cases hre : r0.Error with
    | some e =>
      simp only [collectBatchResults, hre] at hq
      exact List.mem_cons_of_mem _ (ih q hq)
    | none =>
      simp only [collectBatchResults, hre] at hq
      rcases List.mem_cons.mp hq with rfl | hq'
      · simp
      · exact List.mem_cons_of_mem _ (ih q hq')

theorem collect_none_of_error :
    ∀ rs : List (BatchResultM α), (rs.map BatchResultM.FilterName).Nodup →
      ∀ r ∈ rs, r.Error.isSome = true →
      findVal r.FilterName (collectBatchResults rs) = none := by
  intro rs
  induction rs with
  | nil => intro _ r hr; simp at hr
  | cons r0 rs ih =>
    intro hnd r hr herr
    simp only [List.map_cons, List.nodup_cons] at hnd
    rcases List.mem_cons.mp hr with rfl | hrt
    · obtain ⟨e, hre⟩ := Option.isSome_iff_exists.mp herr
      simp only [collectBatchResults, hre]
      rw [findVal_eq_none_iff]
      intro q hq heq
      exact hnd.1 (heq ▸ collect_fst_mem rs q hq)
    · have hne : r0.FilterName ≠ r.FilterName := by
        intro heq
        exact hnd.1 (heq ▸ List.mem_map_of_mem BatchResultM.FilterName hrt)
      cases hre : r0.Error with
      | some e =>
        simp only [collectBatchResults, hre]
        exact ih hnd.2 r hrt herr
      | none =>
        simp only [collectBatchResults, hre, findVal, hne, if_false]
        exact ih hnd.2 r hrt herr

theorem collect_some_of_ok :
    ∀ rs : List (BatchResultM α), (rs.map BatchResultM.FilterName).Nodup →
      ∀ r ∈ rs, r.Error = none →
      findVal r.FilterName (collectBatchResults rs) = some r.Matches := by
  intro rs
  induction rs with
  | nil => intro _ r hr; simp at hr
  | cons r0 rs ih =>
    intro hnd r hr hok
    simp only [List.map_cons, List.nodup_cons] at hnd
    rcases List.mem_cons.mp hr with rfl | hrt
    · simp [collectBatchResults, hok, findVal]
    · have hne : r0.FilterName ≠ r.FilterName := by
        intro heq
        exact hnd.1 (heq ▸ List.mem_map_of_mem BatchResultM.FilterName hrt)
      cases hre : r0.Error with
      | some e =>
        simp only [collectBatchResults, hre]
        exact ih hnd.2 r hrt hok
      | none =>
        simp only [collectBatchResults, hre, findVal, hne, if_false]
        exact ih hnd.2 r hrt hok

/-- C7: when `EvaluateBatch` runs to completion, a per-filter error
removes only that filter's entry from the result map, every successful
filter's entry is present with its matches, and the overall call returns
success (`nil` error) whatever the per-filter outcomes were. -/
theorem c7_batch_partial_failure (rs : List (BatchResultM α))
    (hnd : (rs.map BatchResultM.FilterName).Nodup) :
    (∀ r ∈ rs, r.Error.isSome = true →
      findVal r.FilterName (collectBatchResults rs) = none) ∧
    (∀ r ∈ rs, r.Error = none →
      findVal r.FilterName (collectBatchResults rs) = some r.Matches) ∧
    (∀ (canceled : Bool) (filters : List (String × (α → Bool))) (movies : List α)
        (w b : Int) (rs' : List (BatchResultM α)),
      filters ≠ [] → movies ≠ [] →
      mapO (batchOutcome canceled movies w b) filters = some rs' →
      EvaluateBatch canceled filters movies w b = some (.ok (collectBatchResults rs'))) := by
  refine ⟨collect_none_of_error rs hnd, collect_some_of_ok rs hnd, ?_⟩
  intro canceled filters movies w b rs' hf hm hmap
  cases filters with
  | nil => exact absurd rfl hf
  | cons f fs =>
    cases movies with
    | nil => exact absurd rfl hm
    | cons m ms =>
      unfold EvaluateBatch
      rw [hmap]
      rfl

/-- C7 witness: one succeeded and one errored filter; the errored one is
omitted, the succeeded one keeps its matches, and a completed batch call
returns success. -/
theorem c7_witness :
    ((rsDemo.map BatchResultM.FilterName).Nodup) ∧
    findVal ("bad") (collectBatchResults rsDemo) = none ∧
    findVal ("good") (collectBatchResults rsDemo) = some [1, 2] ∧
    EvaluateBatch true [("x", fun _ : Nat => true)] [0] 1 1 =
      some (.ok (collectBatchResults [(⟨"x", [], some .canceled⟩ : BatchResultM Nat)])) :=
  ⟨by decide,
    (c7_batch_partial_failure rsDemo (by decide)).1 ⟨"bad", [], some .canceled⟩
      (by decide) (by decide),
    (c7_batch_partial_failure rsDemo (by decide)).2.1 ⟨"good", [1, 2], none⟩
      (by decide) (by decide),
    (c7_batch_partial_failure rsDemo (by decide)).2.2 true [("x", fun _ => true)] [0] 1 1
      [⟨"x", [], some .canceled⟩] (List.cons_ne_nil _ _) (List.cons_ne_nil _ _) rfl⟩

end Arrbiter
